import Mathlib

/-!
Shallow embedding of the mcap catalog-then-replay engine
(src/mcap_replay.rs and the loop controller in src/main.rs).

Machine integers (u16 ids, u64 nanosecond timestamps) are modelled as `Nat`;
the Rust code only uses saturating subtraction (`saturating_sub`), which is
exactly `Nat` subtraction, so no explicit modular reduction is needed.
Wall-clock time (`Instant::now`, `start.elapsed()`) is passed in explicitly
as an `elapsed_ns` parameter. Fallible Rust code (`anyhow::Result`) becomes
`Except`.
-/

namespace McapReplay

/-- Association-list model of `HashMap<u16, V>`: lookup by id. -/
def getId {β : Type} : List (Nat × β) → Nat → Option β
  | [], _ => none
  | (k, v) :: l, i => if i = k then some v else getId l i

/-- Keys of the association-list map. -/
def keysOf {β : Type} (l : List (Nat × β)) : List Nat :=
  l.map Prod.fst

/-- Cached schema data, as built by `Schema::new(&header.name, &header.encoding, data)`. -/
structure Schema where
  name : String
  encoding : String
  data : List Nat
deriving DecidableEq

/-- The mcap `SchemaHeader` record fields used by `handle_schema`. -/
structure SchemaHeader where
  id : Nat
  name : String
  encoding : String
deriving DecidableEq

/-- The mcap `Channel` record fields used by `handle_channel`. -/
structure ChannelRec where
  id : Nat
  schema_id : Nat
  topic : String
  message_encoding : String
deriving DecidableEq

/-- A registered channel: what `ChannelBuilder::new(topic).message_encoding(enc).schema(s).build()`
receives and what the catalog stores under the channel id. -/
structure ChannelEntry where
  topic : String
  message_encoding : String
  schema : Option Schema
deriving DecidableEq

/-- The record kinds `Summary::handle_record` distinguishes: `Record::Schema`,
`Record::Channel`, and everything else (ignored). -/
inductive SummaryRecord where
  | schema (header : SchemaHeader) (data : List Nat)
  | channel (rec : ChannelRec)
  | other
deriving DecidableEq

/-- Error taxonomy of `Summary::load_from_mcap` (anyhow messages in the Rust code). -/
inductive LoadError where
  | shortFile
  | badMagic
  | missingIndex
  | invalidSchemaId
deriving DecidableEq

/-- The `Summary` struct: schema and channel maps keyed by id (the `path`
field is irrelevant to the claims and omitted). -/
structure Summary where
  schemas : List (Nat × Schema) := []
  channels : List (Nat × ChannelEntry) := []
deriving DecidableEq

/-- `Summary::handle_schema`: reject id 0, otherwise insert only if the id is
absent (`Entry::Vacant`), so the first registration wins. -/
def Summary.handle_schema (s : Summary) (header : SchemaHeader) (data : List Nat) :
    Except LoadError Summary :=
  if header.id = 0 then .error .invalidSchemaId
  else if (getId s.schemas header.id).isSome then .ok s
  else .ok { s with schemas := (header.id, ⟨header.name, header.encoding, data⟩) :: s.schemas }

/-- `Summary::handle_channel`: insert only if the channel id is absent
(`Entry::Vacant`); in that case resolve the optional schema by `schema_id`,
invoke the channel builder (the returned `Option ChannelEntry` records that
invocation) and cache the handle. On a duplicate id nothing happens. -/
def Summary.handle_channel (s : Summary) (rec : ChannelRec) :
    Summary × Option ChannelEntry :=
  if (getId s.channels rec.id).isSome then (s, none)
  else
    let entry : ChannelEntry :=
      ⟨rec.topic, rec.message_encoding, getId s.schemas rec.schema_id⟩
    ({ s with channels := (rec.id, entry) :: s.channels }, some entry)

/-- `Summary::handle_record`: dispatch on the record kind; other kinds are ignored. -/
def Summary.handle_record (s : Summary) (r : SummaryRecord) : Except LoadError Summary :=
  match r with
  | .schema h d => s.handle_schema h d
  | .channel c => ((s.handle_channel c).1 : Summary) |> .ok
  | .other => .ok s

/-- The summary-scan loop of `load_from_mcap`: fold `handle_record` over the
decoded summary records, propagating errors. -/
def runSummary (s : Summary) : List SummaryRecord → Except LoadError Summary
  | [] => .ok s
  | r :: rs => do
    let s1 ← s.handle_record r
    runSummary s1 rs

/-- `mcap::MAGIC`: the 8-byte magic marker. -/
def MAGIC : List Nat := [137, 77, 67, 65, 80, 48, 13, 10]

/-- `Buf::get_u64_le`: little-endian 64-bit parse of the first 8 bytes. -/
def leU64 (bs : List Nat) : Nat :=
  (bs.take 8).foldr (fun b acc => b + 256 * acc) 0

/-- `buf.ends_with(mcap::MAGIC)` on the 28-byte tail buffer. -/
def endsWithMagic (tail28 : List Nat) : Bool :=
  tail28.drop (tail28.length - 8) == MAGIC

/-- `Summary::load_from_mcap`, over the file's bytes. Decoding of the bytes at
the summary offset into records is done by the external mcap `LinearReader`;
it is abstracted as the oracle `recordsAt`, mapping a summary-section offset
to the decoded record sequence there. The function reads the last 28 bytes,
validates the trailing magic, parses the little-endian u64 summary offset
from the start of that tail, rejects offset 0, and otherwise scans the
summary records from an empty `Summary`. -/
def load_from_mcap (file : List Nat) (recordsAt : Nat → List SummaryRecord) :
    Except LoadError Summary :=
  if file.length < 28 then .error .shortFile
  else
    let tail28 := file.drop (file.length - 28)
    if ¬ endsWithMagic tail28 then .error .badMagic
    else
      let summary_start := leU64 (tail28.take 8)
      if summary_start = 0 then .error .missingIndex
      else runSummary {} (recordsAt summary_start)

/-- The `TimeTracker` struct. The Rust `start: Instant` field is replaced by
passing the wall-clock elapsed nanoseconds (`start.elapsed()`) as an explicit
argument to `sleep_until`. -/
structure TimeTracker where
  offset_ns : Nat
  now_ns : Nat
  notify_interval_ns : Nat
  notify_last : Nat
deriving DecidableEq

/-- `TimeTracker::start(offset_ns)`: treat "now" as the given offset;
the notification interval is `1_000_000_000 / 60` ns and `notify_last` is 0. -/
def TimeTracker.start (offset_ns : Nat) : TimeTracker :=
  { offset_ns := offset_ns
    now_ns := offset_ns
    notify_interval_ns := 1000000000 / 60
    notify_last := 0 }

/-- `TimeTracker::sleep_until(offset_ns)`: `abs = offset_ns.saturating_sub(self.offset_ns)`,
`delta = abs.saturating_sub(self.start.elapsed())`; sleep for `delta` when it is
at least one microsecond, then record `now_ns = offset_ns`. Returns the new
tracker and the nanoseconds actually slept (0 when the call does not block). -/
def TimeTracker.sleep_until (tt : TimeTracker) (elapsed_ns offset_ns : Nat) :
    TimeTracker × Nat :=
  let abs := offset_ns - tt.offset_ns
  let delta := abs - elapsed_ns
  ({ tt with now_ns := offset_ns }, if 1000 ≤ delta then delta else 0)

/-- `TimeTracker::notify()`: if `now_ns.saturating_sub(notify_last)` is at least
the interval, set `notify_last = now_ns` and return `some now_ns`; otherwise
return `none` and leave the tracker unchanged. -/
def TimeTracker.notify (tt : TimeTracker) : TimeTracker × Option Nat :=
  if tt.notify_interval_ns ≤ tt.now_ns - tt.notify_last then
    ({ tt with notify_last := tt.now_ns }, some tt.now_ns)
  else (tt, none)

/-- The mcap `MessageHeader` fields used by `FileStream::handle_message`. -/
structure MessageHeader where
  channel_id : Nat
  sequence : Nat
  log_time : Nat
  publish_time : Nat
deriving DecidableEq

/-- A decoded `Record::Message`: header plus payload bytes. -/
structure Message where
  header : MessageHeader
  data : List Nat
deriving DecidableEq

/-- One `channel.log_with_meta(data, PartialMetadata {..})` call observed at the
publishing collaborator. -/
structure Delivery where
  channel_id : Nat
  payload : List Nat
  sequence : Nat
  log_time : Nat
  publish_time : Nat
deriving DecidableEq

/-- The externally observable effects of one `handle_message` call: nanoseconds
slept, the clock broadcast if one was due, the delivery if the channel id was
known, and the tracker's recorded time after the call. -/
structure StepOut where
  slept_ns : Nat
  broadcast : Option Nat
  delivery : Option Delivery
  now_after : Nat
deriving DecidableEq

/-- `FileStream::handle_message`: lazily create the tracker anchored at this
message's `log_time` (`get_or_insert_with`), sleep until the message's
`log_time`, maybe broadcast a clock update, then forward the payload iff
`channel_id` is found in the catalog's channel map. Total: an unknown channel
id never raises an error, the message is just not delivered. -/
def handle_message (channels : List (Nat × ChannelEntry)) (st : Option TimeTracker)
    (elapsed_ns : Nat) (header : MessageHeader) (data : List Nat) :
    TimeTracker × StepOut :=
  let tt := st.getD (TimeTracker.start header.log_time)
  let p := tt.sleep_until elapsed_ns header.log_time
  let q := p.1.notify
  let delivery := (getId channels header.channel_id).map fun _ =>
    ⟨header.channel_id, data, header.sequence, header.log_time, header.publish_time⟩
  (q.1, ⟨p.2, q.2, delivery, q.1.now_ns⟩)

/-- One replay pass over the decoded `Message` records, threading the lazily
created tracker exactly as `FileStream` does. `elapsed` is the wall-clock
oracle: `elapsed i` is `start.elapsed()` observed during the i-th call. -/
def runMsgs (channels : List (Nat × ChannelEntry)) (elapsed : Nat → Nat) :
    Nat → Option TimeTracker → List Message → List StepOut
  | _, _, [] => []
  | i, st, m :: ms =>
    let p := handle_message channels st (elapsed i) m.header m.data
    p.2 :: runMsgs channels elapsed (i + 1) (some p.1) ms

/-- One frame of the data section as seen by `advance_reader` in the main
loop: either a record that decodes fine, or a malformed frame on which
`mcap::parse_record` fails (`DecodeError`). -/
inductive Frame where
  | good
  | bad
deriving DecidableEq

/-- The inner loop of `main`: `while !done.load(..) && advance_reader(..) {..}`.
The cancellation flag is a monotone external signal: the poll at global poll
index `t` reads set iff `N ≤ t`. Each iteration polls the flag once; if unset
it decodes one frame. A malformed frame makes `advance_reader` return an
error, which `main` unwraps: modelled as `Except.error ()` aborting the run.
Byte-refill iterations (`ReadAction::NeedMore`) are collapsed: they would
only insert extra polls between records, so the model is conservative for
the at-least-one-poll-per-record property. Returns the number of records
processed in the pass and the next poll index. -/
def runPass (N : Nat) : Nat → List Frame → Except Unit (Nat × Nat)
  | t, frames =>
    if N ≤ t then .ok (0, t + 1)
    else
      match frames with
      | [] => .ok (0, t + 1)
      | .bad :: _ => .error ()
      | .good :: rest => (runPass N (t + 1) rest).map fun p => (p.1 + 1, p.2)

/-- The outer loop of `main`: `while !done.load(..)` runs passes; after a pass,
if looping is disabled the controller stores `true` into the flag itself
(forcing the next outer poll to exit, hence exactly the one pass), otherwise
it clears the session and goes around again. `fuel` bounds the number of
passes so the model is total; the list returned holds each completed pass's
processed-record count. -/
def runController (loopEnabled : Bool) (N : Nat) (frames : List Frame) :
    Nat → Nat → Except Unit (List Nat)
  | 0, _ => .ok []
  | fuel + 1, t =>
    if N ≤ t then .ok []
    else do
      let p ← runPass N (t + 1) frames
      if loopEnabled then
        let rest ← runController loopEnabled N frames fuel p.2
        pure (p.1 :: rest)
      else
        pure [p.1]

end McapReplay

deriving instance DecidableEq for Except

namespace McapReplay

/-! ### Observation helpers used to state the theorems -/

/-- Does this summary record declare the schema with id `i`? -/
def isSchemaRec (i : Nat) : SummaryRecord → Bool
  | .schema h _ => h.id == i
  | _ => false

/-- Does this summary record declare the channel with id `i`? -/
def isChannelRec (i : Nat) : SummaryRecord → Bool
  | .channel c => c.id == i
  | _ => false

/-- The cached `Schema` a schema record would produce. -/
def schemaOf : SummaryRecord → Option Schema
  | .schema h d => some ⟨h.name, h.encoding, d⟩
  | _ => none

/-- The (topic, message_encoding) data a channel record carries. -/
def channelDataOf : SummaryRecord → Option (String × String)
  | .channel c => some (c.topic, c.message_encoding)
  | _ => none

/-- All schema ids occurring in a record sequence, in order. -/
def schemaIds (recs : List SummaryRecord) : List Nat :=
  recs.filterMap fun r => match r with
    | .schema h _ => some h.id
    | _ => none

/-- All channel ids occurring in a record sequence, in order. -/
def channelIds (recs : List SummaryRecord) : List Nat :=
  recs.filterMap fun r => match r with
    | .channel c => some c.id
    | _ => none

/-! ### Association-map lemmas -/

theorem getId_eq_none_iff {β : Type} (l : List (Nat × β)) (i : Nat) :
    getId l i = none ↔ i ∉ keysOf l := by
  induction l with
  | nil => simp [getId, keysOf]
  | cons p l ih =>
    obtain ⟨k, v⟩ := p
    by_cases h : i = k <;> simp [getId, keysOf, h] at ih ⊢
    exact ih

theorem keysOf_cons {β : Type} (k : Nat) (v : β) (l : List (Nat × β)) :
    keysOf ((k, v) :: l) = k :: keysOf l := rfl

theorem getId_isSome_iff {β : Type} (l : List (Nat × β)) (i : Nat) :
    (getId l i).isSome = true ↔ i ∈ keysOf l := by
  induction l with
  | nil => simp [getId, keysOf]
  | cons p l ih =>
    obtain ⟨k, v⟩ := p
    by_cases h : i = k <;> simp [getId, keysOf, h] at ih ⊢
    exact ih

/-! ### Summary-scan lemmas -/

theorem runSummary_cons_iff {s0 : Summary} {r : SummaryRecord} {rs : List SummaryRecord}
    {s : Summary} :
    runSummary s0 (r :: rs) = .ok s ↔
      ∃ s1, s0.handle_record r = .ok s1 ∧ runSummary s1 rs = .ok s := by
  cases hr : s0.handle_record r <;>
    simp [runSummary, hr, Bind.bind, Except.bind]

theorem runSummary_ok (recs : List SummaryRecord) :
    ∀ s0 : Summary, (∀ h d, SummaryRecord.schema h d ∈ recs → h.id ≠ 0) →
    ∃ s, runSummary s0 recs = .ok s := by
  induction recs with
  | nil => exact fun s0 _ => ⟨s0, rfl⟩
  | cons r rs ih =>
    intro s0 hz
    have h1 : ∃ s1, s0.handle_record r = .ok s1 := by
      cases r with
      | schema h d =>
        have hid : h.id ≠ 0 := hz h d (List.mem_cons_self _ _)
        simp only [Summary.handle_record, Summary.handle_schema, if_neg hid]
        split <;> exact ⟨_, rfl⟩
      | channel c => exact ⟨_, rfl⟩
      | other => exact ⟨_, rfl⟩
    obtain ⟨s1, h1⟩ := h1
    obtain ⟨s, hs⟩ := ih s1 fun h d hm => hz h d (List.mem_cons_of_mem _ hm)
    exact ⟨s, runSummary_cons_iff.2 ⟨s1, h1, hs⟩⟩

theorem runSummary_getId_schemas (recs : List SummaryRecord) :
    ∀ s0 s : Summary, runSummary s0 recs = .ok s → ∀ i,
      getId s.schemas i =
        (getId s0.schemas i <|> (recs.find? (isSchemaRec i)).bind schemaOf) := by
  induction recs with
  | nil =>
    intro s0 s h i
    have hs : s0 = s := by simpa [runSummary] using h
    subst hs
    cases hg : getId s0.schemas i <;> simp [List.find?, hg]
  | cons r rs ih =>
    intro s0 s h i
    obtain ⟨s1, h1, h2⟩ := runSummary_cons_iff.1 h
    cases r with
    | other =>
      have hs1 : s0 = s1 := by simpa [Summary.handle_record] using h1
      subst hs1
      rw [ih _ _ h2 i]
      simp [List.find?, isSchemaRec]
    | channel c =>
      have hs1 : (s0.handle_channel c).1 = s1 := by
        simpa [Summary.handle_record] using h1
      have hsch : s1.schemas = s0.schemas := by
        rw [← hs1]
        unfold Summary.handle_channel
        split <;> rfl
      rw [ih _ _ h2 i, hsch]
      simp [List.find?, isSchemaRec]
    | schema hh d =>
      by_cases hid : hh.id = 0
      · simp [Summary.handle_record, Summary.handle_schema, hid] at h1
      · by_cases hvac : (getId s0.schemas hh.id).isSome
        · have hs1 : s0 = s1 := by
            simpa [Summary.handle_record, Summary.handle_schema, hid, hvac] using h1
          subst hs1
          rw [ih _ _ h2 i]
          by_cases hi : hh.id = i
          · subst hi
            obtain ⟨v, hv⟩ := Option.isSome_iff_exists.1 hvac
            simp [hv, List.find?, isSchemaRec]
          · have hb : (hh.id == i) = false := beq_eq_false_iff_ne.2 hi
            simp [List.find?, isSchemaRec, hb]
        · have hs1 : ({ s0 with
              schemas := (hh.id, ⟨hh.name, hh.encoding, d⟩) :: s0.schemas } : Summary) = s1 := by
            simpa [Summary.handle_record, Summary.handle_schema, hid, hvac] using h1
          have hvn : getId s0.schemas hh.id = none := Option.not_isSome_iff_eq_none.1 hvac
          rw [ih _ _ h2 i, ← hs1]
          by_cases hi : i = hh.id
          · subst hi
            simp [getId, hvn, List.find?, isSchemaRec, schemaOf]
          · have hb : (hh.id == i) = false := beq_eq_false_iff_ne.2 fun hc => hi hc.symm
            simp [getId, hi, List.find?, isSchemaRec, hb]

theorem runSummary_getId_channels (recs : List SummaryRecord) :
    ∀ s0 s : Summary, runSummary s0 recs = .ok s → ∀ i,
      (getId s.channels i).map (fun e => (e.topic, e.message_encoding)) =
        ((getId s0.channels i).map (fun e => (e.topic, e.message_encoding)) <|>
          (recs.find? (isChannelRec i)).bind channelDataOf) := by
  induction recs with
  | nil =>
    intro s0 s h i
    have hs : s0 = s := by simpa [runSummary] using h
    subst hs
    cases hg : getId s0.channels i <;> simp [List.find?, hg]
  | cons r rs ih =>
    intro s0 s h i
    obtain ⟨s1, h1, h2⟩ := runSummary_cons_iff.1 h
    cases r with
    | other =>
      have hs1 : s0 = s1 := by simpa [Summary.handle_record] using h1
      subst hs1
      rw [ih _ _ h2 i]
      simp [List.find?, isChannelRec]
    | schema hh d =>
      have hch : s1.channels = s0.channels := by
        simp only [Summary.handle_record, Summary.handle_schema] at h1
        split at h1
        · exact absurd h1 (by simp)
        · split at h1
          · injection h1 with h1
            rw [← h1]
          · injection h1 with h1
            rw [← h1]
      rw [ih _ _ h2 i, hch]
      simp [List.find?, isChannelRec]
    | channel c =>
      have hs1 : (s0.handle_channel c).1 = s1 := by
        simpa [Summary.handle_record] using h1
      by_cases hvac : (getId s0.channels c.id).isSome
      · have hss : s0 = s1 := by
          rw [← hs1]
          simp [Summary.handle_channel, hvac]
        subst hss
        rw [ih _ _ h2 i]
        by_cases hi : c.id = i
        · subst hi
          obtain ⟨v, hv⟩ := Option.isSome_iff_exists.1 hvac
          simp [hv, List.find?, isChannelRec]
        · have hb : (c.id == i) = false := beq_eq_false_iff_ne.2 hi
          simp [List.find?, isChannelRec, hb]
      · have hvn : getId s0.channels c.id = none := Option.not_isSome_iff_eq_none.1 hvac
        have hch : s1.channels =
            (c.id, ⟨c.topic, c.message_encoding, getId s0.schemas c.schema_id⟩) ::
              s0.channels := by
          rw [← hs1]
          simp [Summary.handle_channel, hvac]
        rw [ih _ _ h2 i, hch]
        by_cases hi : i = c.id
        · subst hi
          simp [getId, hvn, List.find?, isChannelRec, channelDataOf]
        · have hb : (c.id == i) = false := beq_eq_false_iff_ne.2 fun hc => hi hc.symm
          simp [getId, hi, List.find?, isChannelRec, hb]

theorem runSummary_keys_schemas (recs : List SummaryRecord) :
    ∀ s0 s : Summary, runSummary s0 recs = .ok s →
      (keysOf s.schemas).toFinset = (keysOf s0.schemas).toFinset ∪ (schemaIds recs).toFinset
        ∧ ((keysOf s0.schemas).Nodup → (keysOf s.schemas).Nodup) := by
  induction recs with
  | nil =>
    intro s0 s h
    have hs : s0 = s := by simpa [runSummary] using h
    subst hs
    simp [schemaIds]
  | cons r rs ih =>
    intro s0 s h
    obtain ⟨s1, h1, h2⟩ := runSummary_cons_iff.1 h
    cases r with
    | other =>
      have hs1 : s0 = s1 := by simpa [Summary.handle_record] using h1
      subst hs1
      simpa [schemaIds] using ih _ _ h2
    | channel c =>
      have hs1 : (s0.handle_channel c).1 = s1 := by
        simpa [Summary.handle_record] using h1
      have hsch : s1.schemas = s0.schemas := by
        rw [← hs1]
        unfold Summary.handle_channel
        split <;> rfl
      have hih := ih _ _ h2
      rw [hsch] at hih
      simpa [schemaIds] using hih
    | schema hh d =>
      simp only [Summary.handle_record, Summary.handle_schema] at h1
      have hids : schemaIds (SummaryRecord.schema hh d :: rs) = hh.id :: schemaIds rs := by
        simp [schemaIds]
      split at h1
      · exact absurd h1 (by simp)
      · split at h1
        · rename_i hvac
          injection h1 with h1
          subst h1
          obtain ⟨hA, hB⟩ := ih _ _ h2
          refine ⟨?_, hB⟩
          have hmem : hh.id ∈ (keysOf s0.schemas).toFinset :=
            List.mem_toFinset.2 ((getId_isSome_iff _ _).1 hvac)
          rw [hA, hids, List.toFinset_cons, Finset.union_insert,
            Finset.insert_eq_self.2 (Finset.mem_union_left _ hmem)]
        · rename_i hvac
          have hss : s1.schemas =
              (hh.id, (⟨hh.name, hh.encoding, d⟩ : Schema)) :: s0.schemas := by
            injection h1 with h1
            rw [← h1]
          obtain ⟨hA, hB⟩ := ih _ _ h2
          rw [hss, keysOf_cons] at hA hB
          constructor
          · rw [hA, hids, List.toFinset_cons, List.toFinset_cons, Finset.insert_union,
              Finset.union_insert]
          · intro hnd
            have hnotin : hh.id ∉ keysOf s0.schemas := by
              rw [← getId_eq_none_iff]
              exact Option.not_isSome_iff_eq_none.1 hvac
            exact hB (List.nodup_cons.2 ⟨hnotin, hnd⟩)

theorem runSummary_keys_channels (recs : List SummaryRecord) :
    ∀ s0 s : Summary, runSummary s0 recs = .ok s →
      (keysOf s.channels).toFinset = (keysOf s0.channels).toFinset ∪ (channelIds recs).toFinset
        ∧ ((keysOf s0.channels).Nodup → (keysOf s.channels).Nodup) := by
  induction recs with
  | nil =>
    intro s0 s h
    have hs : s0 = s := by simpa [runSummary] using h
    subst hs
    simp [channelIds]
  | cons r rs ih =>
    intro s0 s h
    obtain ⟨s1, h1, h2⟩ := runSummary_cons_iff.1 h
    cases r with
    | other =>
      have hs1 : s0 = s1 := by simpa [Summary.handle_record] using h1
      subst hs1
      simpa [channelIds] using ih _ _ h2
    | schema hh d =>
      have hch : s1.channels = s0.channels := by
        simp only [Summary.handle_record, Summary.handle_schema] at h1
        split at h1
        · exact absurd h1 (by simp)
        · split at h1
          · injection h1 with h1
            rw [← h1]
          · injection h1 with h1
            rw [← h1]
      have hih := ih _ _ h2
      rw [hch] at hih
      simpa [channelIds] using hih
    | channel c =>
      have hs1 : (s0.handle_channel c).1 = s1 := by
        simpa [Summary.handle_record] using h1
      have hids : channelIds (SummaryRecord.channel c :: rs) = c.id :: channelIds rs := by
        simp [channelIds]
      by_cases hvac : (getId s0.channels c.id).isSome
      · have hss : s0 = s1 := by
          rw [← hs1]
          simp [Summary.handle_channel, hvac]
        subst hss
        obtain ⟨hA, hB⟩ := ih _ _ h2
        refine ⟨?_, hB⟩
        have hmem : c.id ∈ (keysOf s0.channels).toFinset :=
          List.mem_toFinset.2 ((getId_isSome_iff _ _).1 hvac)
        rw [hA, hids, List.toFinset_cons, Finset.union_insert,
          Finset.insert_eq_self.2 (Finset.mem_union_left _ hmem)]
      · have hch : s1.channels =
            (c.id, ⟨c.topic, c.message_encoding, getId s0.schemas c.schema_id⟩) ::
              s0.channels := by
          rw [← hs1]
          simp [Summary.handle_channel, hvac]
        obtain ⟨hA, hB⟩ := ih _ _ h2
        rw [hch, keysOf_cons] at hA hB
        constructor
        · rw [hA, hids, List.toFinset_cons, List.toFinset_cons, Finset.insert_union,
            Finset.union_insert]
        · intro hnd
          have hnotin : c.id ∉ keysOf s0.channels := by
            rw [← getId_eq_none_iff]
            exact Option.not_isSome_iff_eq_none.1 hvac
          exact hB (List.nodup_cons.2 ⟨hnotin, hnd⟩)

/-! ### Claim theorems: catalog construction -/

/-- C1: catalog construction is idempotent and first-wins. For every
summary-section record sequence whose schema ids are all nonzero, the scan
succeeds and the resulting catalog has exactly as many schema entries as
there are distinct schema ids, exactly as many channel entries as there are
distinct channel ids (however often each id repeats), and for each id the
entry holds the data of the first record seen with that id, never a later
duplicate's. -/
theorem catalog_idempotent_first_wins (recs : List SummaryRecord)
    (hz : ∀ i ∈ schemaIds recs, i ≠ 0) :
    ∃ s, runSummary {} recs = Except.ok s
      ∧ s.schemas.length = (schemaIds recs).dedup.length
      ∧ s.channels.length = (channelIds recs).dedup.length
      ∧ (∀ i, getId s.schemas i = (recs.find? (isSchemaRec i)).bind schemaOf)
      ∧ (∀ i, (getId s.channels i).map (fun e => (e.topic, e.message_encoding)) =
          (recs.find? (isChannelRec i)).bind channelDataOf) := by
  have hz2 : ∀ h d, SummaryRecord.schema h d ∈ recs → h.id ≠ 0 := fun h d hm =>
    hz h.id (List.mem_filterMap.2 ⟨_, hm, rfl⟩)
  obtain ⟨s, hs⟩ := runSummary_ok recs {} hz2
  have h0s : keysOf (({} : Summary)).schemas = [] := rfl
  have h0c : keysOf (({} : Summary)).channels = [] := rfl
  refine ⟨s, hs, ?_, ?_, ?_, ?_⟩
  · obtain ⟨hA, hB⟩ := runSummary_keys_schemas recs {} s hs
    rw [h0s] at hA hB
    have hnd : (keysOf s.schemas).Nodup := hB List.nodup_nil
    have hlen : s.schemas.length = (keysOf s.schemas).length :=
      (List.length_map _ _).symm
    rw [hlen, ← List.toFinset_card_of_nodup hnd, hA]
    simp [List.card_toFinset]
  · obtain ⟨hA, hB⟩ := runSummary_keys_channels recs {} s hs
    rw [h0c] at hA hB
    have hnd : (keysOf s.channels).Nodup := hB List.nodup_nil
    have hlen : s.channels.length = (keysOf s.channels).length :=
      (List.length_map _ _).symm
    rw [hlen, ← List.toFinset_card_of_nodup hnd, hA]
    simp [List.card_toFinset]
  · intro i
    have := runSummary_getId_schemas recs {} s hs i
    simpa using this
  · intro i
    have := runSummary_getId_channels recs {} s hs i
    simpa using this

/-- Witness for C1 at a concrete record sequence with duplicated ids:
one distinct schema id (1, repeated twice with different data) and one
distinct channel id (2, repeated twice with different topics). -/
theorem catalog_idempotent_first_wins_witness :
    ∃ s, runSummary {}
        [SummaryRecord.schema ⟨1, "a", "enc"⟩ [7],
         SummaryRecord.schema ⟨1, "b", "enc2"⟩ [8],
         SummaryRecord.channel ⟨2, 1, "topic", "cdr"⟩,
         SummaryRecord.channel ⟨2, 9, "late", "cdr2"⟩] = Except.ok s
      ∧ s.schemas.length = (schemaIds
          [SummaryRecord.schema ⟨1, "a", "enc"⟩ [7],
           SummaryRecord.schema ⟨1, "b", "enc2"⟩ [8],
           SummaryRecord.channel ⟨2, 1, "topic", "cdr"⟩,
           SummaryRecord.channel ⟨2, 9, "late", "cdr2"⟩]).dedup.length
      ∧ s.channels.length = (channelIds
          [SummaryRecord.schema ⟨1, "a", "enc"⟩ [7],
           SummaryRecord.schema ⟨1, "b", "enc2"⟩ [8],
           SummaryRecord.channel ⟨2, 1, "topic", "cdr"⟩,
           SummaryRecord.channel ⟨2, 9, "late", "cdr2"⟩]).dedup.length
      ∧ (∀ i, getId s.schemas i =
          (([SummaryRecord.schema ⟨1, "a", "enc"⟩ [7],
             SummaryRecord.schema ⟨1, "b", "enc2"⟩ [8],
             SummaryRecord.channel ⟨2, 1, "topic", "cdr"⟩,
             SummaryRecord.channel ⟨2, 9, "late", "cdr2"⟩].find? (isSchemaRec i)).bind
            schemaOf))
      ∧ (∀ i, (getId s.channels i).map (fun e => (e.topic, e.message_encoding)) =
          (([SummaryRecord.schema ⟨1, "a", "enc"⟩ [7],
             SummaryRecord.schema ⟨1, "b", "enc2"⟩ [8],
             SummaryRecord.channel ⟨2, 1, "topic", "cdr"⟩,
             SummaryRecord.channel ⟨2, 9, "late", "cdr2"⟩].find? (isChannelRec i)).bind
            channelDataOf)) :=
  catalog_idempotent_first_wins _ (by decide)

/-- C10: handling a `Channel` record whose id is already present in the
catalog has no effect at all: the state is returned unchanged (both maps) and
the channel builder is not invoked (no registration is emitted), hence no
schema lookup result is stored either. -/
theorem duplicate_channel_no_effect (s : Summary) (c : ChannelRec)
    (h : (getId s.channels c.id).isSome = true) :
    s.handle_channel c = (s, none) := by
  simp [Summary.handle_channel, h]

/-- Witness for C10: a catalog already holding channel id 2 ignores a second
channel record with id 2 (different topic, encoding and schema id). -/
theorem duplicate_channel_no_effect_witness :
    (getId (Summary.mk [] [(2, ⟨"t", "m", none⟩)]).channels 2).isSome = true
      ∧ Summary.handle_channel (Summary.mk [] [(2, ⟨"t", "m", none⟩)]) ⟨2, 5, "x", "y"⟩ =
          (Summary.mk [] [(2, ⟨"t", "m", none⟩)], none) :=
  ⟨by decide, duplicate_channel_no_effect _ _ (by decide)⟩

/-! ### Claim theorems: time tracker -/

/-- C2: for `sleep_until t` on a tracker with recorded-time origin
`offset_ns` and wall-clock elapsed `elapsed_ns`, the computed wait is
`max 0 ((t - origin) - elapsed)` with both subtractions saturating at zero;
the call blocks for exactly that wait when it is at least the one-microsecond
threshold (1000 ns) and otherwise returns immediately without blocking
(sleeping 0 ns); afterwards the tracker records `now_ns = t` with the other
fields unchanged. -/
theorem sleep_until_wait (tt : TimeTracker) (elapsed_ns t : Nat) :
    (tt.sleep_until elapsed_ns t).1 = { tt with now_ns := t }
      ∧ (tt.sleep_until elapsed_ns t).2 =
          (if 1000 ≤ (max 0 ((t : ℤ) - tt.offset_ns - elapsed_ns)).toNat then
            (max 0 ((t : ℤ) - tt.offset_ns - elapsed_ns)).toNat
          else 0) := by
  refine ⟨rfl, ?_⟩
  have hw : t - tt.offset_ns - elapsed_ns =
      (max 0 ((t : ℤ) - tt.offset_ns - elapsed_ns)).toNat := by
    omega
  simp only [TimeTracker.sleep_until]
  rw [hw]

/-- The cadence invariant behind C3: starting from any tracker whose interval
is 1/60 s, the broadcasts a pass emits form a chain anchored at the tracker's
current `notify_last`, each link at least 16,666,666 ns above the previous. -/
theorem broadcasts_chain_from (channels : List (Nat × ChannelEntry)) (elapsed : Nat → Nat) :
    ∀ (msgs : List Message) (i : Nat) (tt : TimeTracker),
      tt.notify_interval_ns = 16666666 →
      List.Chain (fun a b => a + 16666666 ≤ b) tt.notify_last
        ((runMsgs channels elapsed i (some tt) msgs).filterMap StepOut.broadcast) := by
  intro msgs
  induction msgs with
  | nil =>
    intro i tt _
    simp only [runMsgs, List.filterMap_nil]
    exact List.Chain.nil
  | cons m ms ih =>
    intro i tt hI
    by_cases hc : tt.notify_interval_ns ≤ m.header.log_time - tt.notify_last
    · have hstep : runMsgs channels elapsed i (some tt) (m :: ms) =
          ⟨(tt.sleep_until (elapsed i) m.header.log_time).2, some m.header.log_time,
            (getId channels m.header.channel_id).map fun _ =>
              ⟨m.header.channel_id, m.data, m.header.sequence, m.header.log_time,
                m.header.publish_time⟩, m.header.log_time⟩ ::
            runMsgs channels elapsed (i + 1)
              (some { tt with now_ns := m.header.log_time,
                              notify_last := m.header.log_time }) ms := by
        simp [runMsgs, handle_message, TimeTracker.sleep_until, TimeTracker.notify, hc]
      rw [hstep]
      simp only [List.filterMap_cons]
      refine List.Chain.cons ?_ ?_
      · rw [hI] at hc
        omega
      · exact ih _ { tt with now_ns := m.header.log_time,
                             notify_last := m.header.log_time } hI
    · have hstep : runMsgs channels elapsed i (some tt) (m :: ms) =
          ⟨(tt.sleep_until (elapsed i) m.header.log_time).2, none,
            (getId channels m.header.channel_id).map fun _ =>
              ⟨m.header.channel_id, m.data, m.header.sequence, m.header.log_time,
                m.header.publish_time⟩, m.header.log_time⟩ ::
            runMsgs channels elapsed (i + 1)
              (some { tt with now_ns := m.header.log_time }) ms := by
        simp [runMsgs, handle_message, TimeTracker.sleep_until, TimeTracker.notify, hc]
      rw [hstep]
      simp only [List.filterMap_cons]
      exact ih _ { tt with now_ns := m.header.log_time } hI

/-- C3: `notify` returns the current recorded time and sets `notify_last` to
it iff the current recorded time is at least `notify_last` plus the fixed
1/60 s interval (16,666,666 ns); otherwise it returns nothing and leaves the
tracker unchanged. Consequently, across any pass the broadcast timestamps are
spaced at least 16,666,666 ns of recorded time apart (hence strictly
increasing, in particular monotonically non-decreasing). -/
theorem notify_interval_spacing :
    (∀ tt : TimeTracker, tt.notify_interval_ns = 16666666 →
      ((tt.notify = ({ tt with notify_last := tt.now_ns }, some tt.now_ns)) ↔
          tt.notify_last + 16666666 ≤ tt.now_ns)
        ∧ ((tt.notify = (tt, none)) ↔ tt.now_ns < tt.notify_last + 16666666))
    ∧ ∀ (channels : List (Nat × ChannelEntry)) (elapsed : Nat → Nat)
        (msgs : List Message),
        List.Chain' (fun a b => a + 16666666 ≤ b)
          ((runMsgs channels elapsed 0 none msgs).filterMap StepOut.broadcast) := by
  constructor
  · intro tt hI
    unfold TimeTracker.notify
    rw [hI]
    by_cases hc : 16666666 ≤ tt.now_ns - tt.notify_last
    · constructor
      · simp only [if_pos hc]
        constructor
        · intro _
          omega
        · intro _
          trivial
      · simp only [if_pos hc, Prod.mk.injEq]
        constructor
        · intro hx
          exact absurd hx.2 (by simp)
        · intro hx
          omega
    · constructor
      · simp only [if_neg hc, Prod.mk.injEq]
        constructor
        · intro hx
          exact absurd hx.2 (by simp)
        · intro hx
          omega
      · simp only [if_neg hc]
        constructor
        · intro _
          omega
        · intro _
          trivial
  · intro channels elapsed msgs
    cases msgs with
    | nil => simp [runMsgs]
    | cons m ms =>
      have h0 : runMsgs channels elapsed 0 none (m :: ms) =
          runMsgs channels elapsed 0 (some (TimeTracker.start m.header.log_time))
            (m :: ms) := by
        simp [runMsgs, handle_message]
      rw [h0]
      have h := broadcasts_chain_from channels elapsed (m :: ms) 0
        (TimeTracker.start m.header.log_time) rfl
      have h2 : List.Chain' (fun a b => a + 16666666 ≤ b)
          ((TimeTracker.start m.header.log_time).notify_last ::
            ((runMsgs channels elapsed 0 (some (TimeTracker.start m.header.log_time))
              (m :: ms)).filterMap StepOut.broadcast)) := h
      exact h2.tail

/-- Witness for C3: a tracker whose recorded time is 20 ms past `notify_last`
fires a broadcast of exactly its current recorded time. -/
theorem notify_interval_spacing_witness :
    TimeTracker.notify ⟨0, 20000000, 16666666, 0⟩ =
      (⟨0, 20000000, 16666666, 20000000⟩, some 20000000) :=
  (notify_interval_spacing.1 ⟨0, 20000000, 16666666, 0⟩ rfl).1.2 (by norm_num)

/-! ### Claim theorems: replay engine -/

/-- C4: for every decoded message, the delivery emitted by `handle_message`
depends only on the catalog lookup of its channel id: an unknown id yields no
delivery (the message is silently dropped, no error is possible since the
handler is total) and has no influence on later messages, and every message
with a known id is forwarded with its payload, sequence, log_time and
publish_time, regardless of any earlier dropped messages. -/
theorem unknown_channel_dropped (channels : List (Nat × ChannelEntry))
    (elapsed : Nat → Nat) (i : Nat) (st : Option TimeTracker) (msgs : List Message) :
    (runMsgs channels elapsed i st msgs).map StepOut.delivery =
      msgs.map fun m => (getId channels m.header.channel_id).map fun _ =>
        (⟨m.header.channel_id, m.data, m.header.sequence, m.header.log_time,
          m.header.publish_time⟩ : Delivery) := by
  induction msgs generalizing i st with
  | nil => rfl
  | cons m ms ih =>
    simp only [runMsgs, List.map_cons, handle_message]
    exact congrArg _ (ih _ _)

/-- `notify` never changes the tracker's recorded time. -/
theorem notify_now_ns (tt : TimeTracker) : (tt.notify).1.now_ns = tt.now_ns := by
  unfold TimeTracker.notify
  split <;> rfl

/-- The tracker's recorded time after each handled message is that message's
`log_time`. -/
theorem runMsgs_now_after (channels : List (Nat × ChannelEntry)) (elapsed : Nat → Nat) :
    ∀ (msgs : List Message) (i : Nat) (st : Option TimeTracker),
      (runMsgs channels elapsed i st msgs).map StepOut.now_after =
        msgs.map fun m => m.header.log_time := by
  intro msgs
  induction msgs with
  | nil => intro i st; rfl
  | cons m ms ih =>
    intro i st
    simp only [runMsgs, List.map_cons, handle_message, notify_now_ns]
    exact congrArg _ (ih _ _)

/-- C8: within a single pass, if the `sleep_until` targets (the messages'
log_times) are non-decreasing, the tracker's current recorded time is
non-decreasing across the whole pass. -/
theorem recorded_time_monotone (channels : List (Nat × ChannelEntry))
    (elapsed : Nat → Nat) (msgs : List Message)
    (h : List.Chain' (fun a b => a ≤ b) (msgs.map fun m => m.header.log_time)) :
    List.Chain' (fun a b => a ≤ b)
      ((runMsgs channels elapsed 0 none msgs).map StepOut.now_after) := by
  rw [runMsgs_now_after]
  exact h

/-- Witness for C8 on a two-message pass with log_times 1 and 5 ns. -/
theorem recorded_time_monotone_witness :
    List.Chain' (fun a b => a ≤ b)
      ((runMsgs [] (fun _ => 0) 0 none
        [⟨⟨0, 0, 1, 0⟩, []⟩, ⟨⟨0, 0, 5, 0⟩, []⟩]).map StepOut.now_after) :=
  recorded_time_monotone _ _ _ (by simp)

/-- C9: because `notify_last` starts at 0 rather than at the pass's recorded
origin, the first message of a pass triggers an immediate clock broadcast iff
its log_time is at least 16,666,666 ns; in particular an epoch-scale first
timestamp broadcasts immediately, while a first message with log_time 0
emits none. -/
theorem first_message_broadcast (channels : List (Nat × ChannelEntry))
    (elapsed : Nat → Nat) (m : Message) (rest : List Message) :
    ((runMsgs channels elapsed 0 none (m :: rest)).map StepOut.broadcast).head? =
      some (if 16666666 ≤ m.header.log_time then some m.header.log_time else none) := by
  by_cases hc : 16666666 ≤ m.header.log_time
  · simp [runMsgs, handle_message, TimeTracker.notify, TimeTracker.sleep_until,
      TimeTracker.start, hc]
  · simp [runMsgs, handle_message, TimeTracker.notify, TimeTracker.sleep_until,
      TimeTracker.start, hc]

/-! ### Loop-controller lemmas -/

theorem runPass_nil (N t : Nat) : runPass N t [] = .ok (0, t + 1) := by
  by_cases h : N ≤ t <;> simp [runPass, h]

theorem runPass_flag_set (N t : Nat) (frames : List Frame) (h : N ≤ t) :
    runPass N t frames = .ok (0, t + 1) := by
  unfold runPass
  rw [if_pos h]

theorem runPass_ok_shape (N : Nat) : ∀ (frames : List Frame) (t k u : Nat),
    runPass N t frames = .ok (k, u) → u = t + (k + 1) ∧ (0 < k → t + k ≤ N) := by
  intro frames
  induction frames with
  | nil =>
    intro t k u h
    rw [runPass_nil] at h
    simp only [Except.ok.injEq, Prod.mk.injEq] at h
    omega
  | cons f rest ih =>
    intro t k u h
    by_cases hN : N ≤ t
    · rw [runPass_flag_set _ _ _ hN] at h
      simp only [Except.ok.injEq, Prod.mk.injEq] at h
      omega
    · cases f with
      | bad => simp [runPass, hN] at h
      | good =>
        simp only [runPass, if_neg hN] at h
        cases hr : runPass N (t + 1) rest with
        | error e =>
          rw [hr] at h
          simp [Except.map] at h
        | ok p =>
          obtain ⟨p1, p2⟩ := p
          rw [hr] at h
          simp only [Except.map, Except.ok.injEq, Prod.mk.injEq] at h
          obtain ⟨hu2, hk2⟩ := ih (t + 1) p1 p2 hr
          constructor
          · omega
          · intro _
            by_cases hp : 0 < p1
            · have := hk2 hp
              omega
            · omega

theorem runController_flag_set (le : Bool) (N : Nat) (frames : List Frame)
    (fuel t : Nat) (h : N ≤ t) :
    runController le N frames fuel t = .ok [] := by
  cases fuel <;> simp [runController, h]

theorem runController_noloop_single (N : Nat) (frames : List Frame) (fuel t : Nat) :
    ∀ ps, runController false N frames fuel t = .ok ps → ps.length ≤ 1 := by
  cases fuel with
  | zero =>
    intro ps h
    simp only [runController, Except.ok.injEq] at h
    simp [← h]
  | succ f =>
    intro ps h
    by_cases hN : N ≤ t
    · rw [runController_flag_set _ _ _ _ _ hN] at h
      simp only [Except.ok.injEq] at h
      simp [← h]
    · simp only [runController, if_neg hN] at h
      cases hr : runPass N (t + 1) frames with
      | error e =>
        rw [hr] at h
        simp [Bind.bind, Except.bind] at h
      | ok p =>
        rw [hr] at h
        simp only [Bind.bind, Except.bind, Bool.false_eq_true, if_false,
          Pure.pure, Except.pure, Except.ok.injEq] at h
        simp [← h]

theorem runPass_all_good (N : Nat) : ∀ frames : List Frame,
    (∀ f ∈ frames, f = Frame.good) →
    ∀ t, ∃ k u, runPass N t frames = .ok (k, u) := by
  intro frames
  induction frames with
  | nil => exact fun _ t => ⟨0, t + 1, runPass_nil N t⟩
  | cons f rest ih =>
    intro hall t
    have hf : f = Frame.good := hall f (List.mem_cons_self _ _)
    subst hf
    by_cases hN : N ≤ t
    · exact ⟨0, t + 1, runPass_flag_set _ _ _ hN⟩
    · obtain ⟨k, u, hk⟩ := ih (fun f hm => hall f (List.mem_cons_of_mem _ hm)) (t + 1)
      exact ⟨k + 1, u, by simp [runPass, hN, hk, Except.map]⟩

/-- C5: the controller polls the cancellation flag once per decoded record
plus once when a pass winds down (the pass's next poll index `u` equals
`t + (k + 1)` after `k` records), and once per pass boundary; once the flag
reads set (poll index at least `N`), the current pass processes no further
record (every processed record's poll index stayed below `N`) and no new pass
starts; with looping disabled at most one pass ever completes, and exactly
one pass runs when the flag is unset at start and the file decodes cleanly. -/
theorem loop_cancellation (le : Bool) (N t fuel : Nat) (frames : List Frame) :
    (N ≤ t → runPass N t frames = .ok (0, t + 1))
      ∧ (∀ k u, runPass N t frames = .ok (k, u) → u = t + (k + 1) ∧ (0 < k → t + k ≤ N))
      ∧ (N ≤ t → runController le N frames fuel t = .ok [])
      ∧ (∀ ps, runController false N frames fuel t = .ok ps → ps.length ≤ 1)
      ∧ (t < N → 0 < fuel → (∀ f ∈ frames, f = Frame.good) →
          ∃ k, runController false N frames fuel t = .ok [k]) := by
  refine ⟨runPass_flag_set N t frames, fun k u => runPass_ok_shape N frames t k u,
    runController_flag_set le N frames fuel t,
    runController_noloop_single N frames fuel t, ?_⟩
  intro hN hfuel hall
  obtain ⟨f, rfl⟩ : ∃ f, fuel = f + 1 := ⟨fuel - 1, by omega⟩
  obtain ⟨k, u, hk⟩ := runPass_all_good N frames hall (t + 1)
  refine ⟨k, ?_⟩
  have hN2 : ¬ N ≤ t := by omega
  simp [runController, hN2, hk, Bind.bind, Except.bind, Pure.pure, Except.pure]

/-- Witness for C5: with the flag already set (poll index 5 ≥ N = 3) the pass
processes nothing, and with the flag never set in range and looping disabled
the controller performs exactly one full pass over a two-record file. -/
theorem loop_cancellation_witness :
    runPass 3 5 [Frame.good] = Except.ok (0, 6)
      ∧ runController false 3 [Frame.good, Frame.good] 2 0 = Except.ok [2] :=
  ⟨(loop_cancellation false 3 5 1 [Frame.good]).1 (by norm_num), by decide⟩

/-- C6: when the trailing magic checks out and the little-endian 64-bit
summary offset parsed from the 28-byte tail is zero, `load_from_mcap` fails
with the missing-index error; the result is this error for every possible
record content at any offset, so no summary record is scanned and no schema
or channel is registered. -/
theorem missing_index_rejected (file : List Nat) (recordsAt : Nat → List SummaryRecord)
    (h1 : ¬ file.length < 28)
    (h2 : endsWithMagic (file.drop (file.length - 28)) = true)
    (h3 : leU64 ((file.drop (file.length - 28)).take 8) = 0) :
    load_from_mcap file recordsAt = .error .missingIndex := by
  simp [load_from_mcap, h1, h2, h3]

/-- Witness for C6: a 28-byte file holding a zeroed footer field followed by
the magic marker is rejected as missing-index even when records exist. -/
theorem missing_index_rejected_witness :
    load_from_mcap (List.replicate 20 0 ++ MAGIC)
        (fun _ => [SummaryRecord.channel ⟨1, 0, "t", "m"⟩]) =
      Except.error LoadError.missingIndex :=
  missing_index_rejected _ _ (by decide) (by decide) (by decide)

theorem runPass_bad (N : Nat) : ∀ (pre : List Frame) (t : Nat) (post : List Frame),
    (∀ f ∈ pre, f = Frame.good) → t + pre.length < N →
    runPass N t (pre ++ Frame.bad :: post) = .error () := by
  intro pre
  induction pre with
  | nil =>
    intro t post _ ht
    have hN : ¬ N ≤ t := by simp at ht; omega
    simp [runPass, hN]
  | cons f rest ih =>
    intro t post hall ht
    have hf : f = Frame.good := hall f (List.mem_cons_self _ _)
    subst hf
    have hN : ¬ N ≤ t := by simp at ht; omega
    simp only [List.cons_append, runPass, if_neg hN, List.append_eq]
    rw [ih (t + 1) post (fun f hm => hall f (List.mem_cons_of_mem _ hm))
      (by simp at ht ⊢; omega)]
    rfl

/-- Counterexample for C7 as stated: with looping enabled (and the
cancellation flag unset for the whole run), a malformed frame in the data
section does not end "only that pass": the whole controller run aborts with
the decode error (the controller would otherwise have produced `.ok` with one
entry per completed pass), because `main` unwraps the decode result. -/
theorem decode_error_counterexample :
    runController true 5 [Frame.bad] 3 0 = Except.error () := by
  decide

/-- C7 amended: a decode error mid-pass is fatal and not retried: the pass
ends at the bad frame without skipping it, and the whole session ends
regardless of whether looping is enabled (the error propagates out of the
controller in both modes). -/
theorem decode_error_fatal (le : Bool) (N t fuel : Nat) (pre post : List Frame)
    (hpre : ∀ f ∈ pre, f = Frame.good) (ht : t + pre.length + 2 ≤ N)
    (hfuel : 0 < fuel) :
    runPass N (t + 1) (pre ++ Frame.bad :: post) = .error ()
      ∧ runController le N (pre ++ Frame.bad :: post) fuel t = .error () := by
  have h1 : runPass N (t + 1) (pre ++ Frame.bad :: post) = .error () :=
    runPass_bad N pre (t + 1) post hpre (by omega)
  refine ⟨h1, ?_⟩
  obtain ⟨f, rfl⟩ : ∃ f, fuel = f + 1 := ⟨fuel - 1, by omega⟩
  have hN : ¬ N ≤ t := by omega
  simp [runController, hN, h1, Bind.bind, Except.bind]

/-- Witness for C7's amended statement: one good record then a bad frame,
flag never set in range, looping enabled, fuel for two passes: the run
errors out. -/
theorem decode_error_fatal_witness :
    runPass 10 1 [Frame.good, Frame.bad] = Except.error ()
      ∧ runController true 10 [Frame.good, Frame.bad] 2 0 = Except.error () :=
  decode_error_fatal true 10 0 2 [Frame.good] [] (by decide) (by norm_num) (by norm_num)

end McapReplay
